import Mathlib

/- Lean embedding of the chunk-planning, task-script-generation, validation and
   merge logic of notebooks/manage_local_batch.py.  Paths are modelled as Lean
   strings; where prefix surgery matters they are modelled as character lists.
   Sorting compares the underlying character sequences lexicographically, which
   is how CPython compares strings (by code point). -/

/-- String ordering used by the embedding: lexicographic comparison of the
underlying character lists, matching Python's code-point string comparison. -/
def strLe (a b : String) : Prop :=
  a.data ≤ b.data

instance : DecidableRel strLe :=
  fun a b => inferInstanceAs (Decidable (a.data ≤ b.data))

instance : IsTotal String strLe :=
  ⟨fun a b => le_total a.data b.data⟩

instance : IsTrans String strLe :=
  ⟨fun _ _ _ h1 h2 => le_trans h1 h2⟩

instance : IsAntisymm String strLe :=
  ⟨fun a b h1 h2 => by cases a; cases b; exact congrArg String.mk (le_antisymm h1 h2)⟩

/-- Python's `sorted` on a list of strings. -/
def sortStrings (l : List String) : List String :=
  List.insertionSort strLe l

/-- Modelled from the spec: `split_list_into_n_chunks` is imported from
`megadetector.utils.ct_utils`, whose source is not in this tree.  Per the spec
(section 4.1) the planner cuts the list into contiguous chunks whose sizes
differ by at most one and whose concatenation in index order reproduces the
input; the first chunk takes the ceiling share, the rest are split recursively.
`splitChunksRaw` is the raw contiguous split into exactly `n` slices. -/
def splitChunksRaw : List String → Nat → List (List String)
  | _, 0 => []
  | l, n + 1 =>
      l.take ((l.length + n) / (n + 1)) ::
        splitChunksRaw (l.drop ((l.length + n) / (n + 1))) n

/-- Modelled from the spec: the chunk planner returns `n` chunks, or `min n m`
chunks when the list has `m < n` elements (no empty chunks are produced). -/
def split_list_into_n_chunks (l : List String) (n : Nat) : List (List String) :=
  (splitChunksRaw l n).filter (fun c => !c.isEmpty)

/-- One per-image record of a detector result file: the `file` path and the
optional `failure` entry.  `failure = none` models a record without a
`failure` key; `failure = some none` models a present key whose value is
null; `failure = some (some s)` models a present, non-null failure marker. -/
structure ImageRecord where
  file : String
  failure : Option (Option String)
  deriving Repr, DecidableEq

/-- One per-chunk result payload (a task's `results`), with the shared
metadata checked during the merge and the list of image records. -/
structure TaskResults where
  format_version : String
  detection_categories : List (String × String)
  images : List ImageRecord
  deriving Repr, DecidableEq

/-- The file paths of a task's result records, in record order. -/
def taskFiles (t : TaskResults) : List String :=
  t.images.map (fun im => im.file)

/-- Inner loop of the merge cell: walk one task's records, asserting
`im.file not in images_processed` and accumulating the processed set
(manage_local_batch.py lines 766-769). -/
def addTaskImages : List String → List ImageRecord → Option (List String)
  | processed, [] => some processed
  | processed, im :: rest =>
      if im.file ∈ processed then none
      else addTaskImages (im.file :: processed) rest

/-- Outer loop of the merge cell (lines 755-771): the first task's metadata
is copied, every later task's metadata must equal it, and each task's
records are appended after the duplicate check. -/
def mergeTasks : Option (String × List (String × String)) → List String → List ImageRecord →
    List TaskResults → Option (List ImageRecord)
  | _, _, acc, [] => some acc
  | none, processed, acc, t :: rest =>
      match addTaskImages processed t.images with
      | none => none
      | some processed2 =>
          mergeTasks (some (t.format_version, t.detection_categories)) processed2
            (acc ++ t.images) rest
  | some (fv, dc), processed, acc, t :: rest =>
      if fv = t.format_version ∧ dc = t.detection_categories then
        match addTaskImages processed t.images with
        | none => none
        | some processed2 => mergeTasks (some (fv, dc)) processed2 (acc ++ t.images) rest
      else none

/-- The merge cell end to end (lines 751-780): run the task loop, then assert
that the combined record count equals the full enumerated image count and
that the merged paths are unique (`len(set(...))` is modelled by `dedup`). -/
def mergeResults (tasks : List TaskResults) (n_all : Nat) : Option (List ImageRecord) :=
  match mergeTasks none [] [] tasks with
  | none => none
  | some images =>
      if images.length = n_all ∧ (images.map (fun im => im.file)).dedup.length = images.length
      then some images
      else none

/-- Missing-output-file collection pass (lines 682-688): walk the tasks and
collect every declared output file that does not exist. -/
def collectMissingOutputs : List String → List String → List String
  | [], _ => []
  | f :: rest, existing =>
      if f ∈ existing then collectMissingOutputs rest existing
      else f :: collectMissingOutputs rest existing

/-- The missing-output gate (lines 690-694): raise, listing all missing
files, when any output file is absent. -/
def checkOutputFiles (expected existing : List String) : Except (List String) Unit :=
  if collectMissingOutputs expected existing = [] then Except.ok ()
  else Except.error (collectMissingOutputs expected existing)

/-- Manifest-completeness assert (lines 733-735): for each manifest image in
order, assert it has a result record; the assert names only the file it
stopped at. -/
def checkManifestComplete : List String → List String → Except String Unit
  | [], _ => Except.ok ()
  | fn :: rest, keys =>
      if fn ∈ keys then checkManifestComplete rest keys
      else Except.error fn

/-- Python `s.replace(old, new, 1)`: replace the first occurrence of `old`
in the character sequence, leaving the rest untouched. -/
def replaceFirstOcc (old new : List Char) : List Char → List Char
  | [] => if old.isPrefixOf [] then new else []
  | c :: rest =>
      if old.isPrefixOf (c :: rest) then new ++ (c :: rest).drop old.length
      else c :: replaceFirstOcc old new rest

/-- Python `s.replace(old, new)`: replace every non-overlapping occurrence of
`old`, scanning left to right (empty `old` is left untouched here; the
script only replaces non-empty patterns). -/
def replaceAllOcc (old new : List Char) (s : List Char) : List Char :=
  match s with
  | [] => []
  | c :: rest =>
      if h : old.isPrefixOf (c :: rest) = true ∧ old ≠ [] then
        new ++ replaceAllOcc old new ((c :: rest).drop old.length)
      else c :: replaceAllOcc old new rest
termination_by s.length
decreasing_by
  · simp only [List.length_drop, List.length_cons]
    have h1 : 1 ≤ old.length := List.length_pos.mpr h.2
    omega
  · simp only [List.length_cons]
    omega

/-- Python `s.startswith(pre)` on code points. -/
def strStartsWith (s pre : String) : Bool :=
  pre.data.isPrefixOf s.data

/-- Python `s.replace(old, new)` lifted back to `String`. -/
def strReplace (s old new : String) : String :=
  ⟨replaceAllOcc old.data new.data s.data⟩

/-- Relativization step of the merge cell (lines 786-789): strip the input
root once — the bare root when it ends in a drive separator, otherwise the
root plus `/`. -/
def relativizePath (input_path p : String) : String :=
  if input_path.data.getLast? = some ':' then ⟨replaceFirstOcc input_path.data [] p.data⟩
  else ⟨replaceFirstOcc (input_path.data ++ ['/']) [] p.data⟩

/-- Re-joining a relative path to the input root (`os.path.join` as used by
the downstream consumers of the combined file, forward-slash form). -/
def rejoinPath (input_path rel : String) : String :=
  if input_path.data.getLast? = some ':' then ⟨input_path.data ++ rel.data⟩
  else ⟨input_path.data ++ '/' :: rel.data⟩

/-- Path normalization for one result record (lines 720-722): a relative path
is joined to the input root and backslashes are converted; POSIX
`os.path.isabs` is a leading slash. -/
def normalizeRecord (input_path : String) (im : ImageRecord) : ImageRecord :=
  if strStartsWith im.file "/" then im
  else ⟨strReplace (input_path ++ "/" ++ im.file) "\\" "/", im.failure⟩

/-- Per-task record scan (lines 715-728): normalize each record's path,
assert it lies under the input root and inside the task's manifest, build
`filename_to_results`, and count records carrying a `failure` key, asserting
the value is non-null. -/
def processTaskImages (input_path : String) (task_images : List String) :
    List ImageRecord → Option (List (String × ImageRecord) × Nat)
  | [] => some ([], 0)
  | im :: rest =>
      if strStartsWith (normalizeRecord input_path im).file input_path = true
          ∧ (normalizeRecord input_path im).file ∈ task_images then
        match (normalizeRecord input_path im).failure with
        | some none => none
        | _ =>
            match processTaskImages input_path task_images rest with
            | none => none
            | some (m, n) =>
                some (((normalizeRecord input_path im).file, normalizeRecord input_path im) :: m,
                  n + if (normalizeRecord input_path im).failure.isSome then 1 else 0)
      else none

/-- Per-task validation (lines 699-737 for one task): scan the records, then
assert every manifest image has a result record; yield the failure count. -/
def validateTask (input_path : String) (task_images : List String)
    (ims : List ImageRecord) : Option Nat :=
  match processTaskImages input_path task_images ims with
  | none => none
  | some (m, n) =>
      match checkManifestComplete task_images (m.map Prod.fst) with
      | Except.ok _ => some n
      | Except.error _ => none

/-- Job-wide failure total (lines 696-737): validate every task and sum the
per-task failure counts. -/
def totalFailures (input_path : String) :
    List (List String × List ImageRecord) → Option Nat
  | [] => some 0
  | (imgs, ims) :: rest =>
      match validateTask input_path imgs ims with
      | none => none
      | some n =>
          match totalFailures input_path rest with
          | none => none
          | some total => some (n + total)

/-- The failure-tolerance gate (lines 741-743):
`assert n_total_failures < max_tolerable_failed_images`. -/
def checkFailureTolerance (n_total max_tolerable : Nat) : Bool :=
  decide (n_total < max_tolerable)

/-- Tolerance outcome of reconciliation: total the failures over all tasks
and stop unless the total is strictly below the ceiling. -/
def reconcileTolerance (input_path : String)
    (tasks : List (List String × List ImageRecord)) (max_tolerable : Nat) : Option Nat :=
  match totalFailures input_path tasks with
  | none => none
  | some total => if checkFailureTolerance total max_tolerable then some total else none

/-- The configuration constants consulted by the validation cell and the
command generator (floats that are only ever rendered into command text are
carried as their rendered strings). -/
structure RunConfig where
  use_image_queue : Bool
  augment : Bool
  use_tiled_inference : Bool
  use_yolo_inference_scripts : Bool
  checkpoint_frequency : Option Int
  quiet_mode : Bool
  image_size : Option Int
  ncores : Int
  json_threshold : Option String
  include_image_size : Bool
  include_image_timestamp : Bool
  include_exif_data : Bool
  detector_options : Option String
  overwrite_handling : String
  model_file : String
  deriving Repr, DecidableEq

/-- The mode-compatibility asserts of the validation cell (lines 266-283):
image-queue, augmentation and tiled inference each require
`checkpoint_frequency is None`; augmentation requires the YOLO scripts;
tiled inference excludes augmentation and the YOLO scripts. -/
def validateConfig (c : RunConfig) : Bool :=
  (!c.use_image_queue || c.checkpoint_frequency.isNone)
  && (!c.augment || (c.checkpoint_frequency.isNone && c.use_yolo_inference_scripts))
  && (!c.use_tiled_inference
      || (!c.augment && !c.use_yolo_inference_scripts && c.checkpoint_frequency.isNone))

/-- Number of the four special modes (checkpointing, image queue,
augmentation, tiled inference) a configuration enables. -/
def modeCount (c : RunConfig) : Nat :=
  (if c.checkpoint_frequency.isSome then 1 else 0) + (if c.use_image_queue then 1 else 0)
    + (if c.augment then 1 else 0) + (if c.use_tiled_inference then 1 else 0)

/-- Lines 494-498: the checkpoint-frequency flag, rendered only when the
frequency is set and strictly positive. -/
def checkpoint_frequency_string (c : RunConfig) : String :=
  match c.checkpoint_frequency with
  | some f => if f > 0 then "--checkpoint_frequency " ++ toString f else ""
  | none => ""

/-- Lines 495-499: the checkpoint-path flag, same guard. -/
def checkpoint_path_string (c : RunConfig) (checkpoint_filename : String) : String :=
  match c.checkpoint_frequency with
  | some f => if f > 0 then "--checkpoint_path \"" ++ checkpoint_filename ++ "\"" else ""
  | none => ""

/-- The `run_detector_batch.py` command rendered for one task (lines 487-528,
POSIX branch). -/
def buildCommand (c : RunConfig) (gpu_number : Nat)
    (chunk_file output_fn checkpoint_filename : String) : String :=
  let cuda_string := "CUDA_VISIBLE_DEVICES=" ++ toString gpu_number ++ " "
  let image_size_string := match c.image_size with
    | some s => "--image_size " ++ toString s
    | none => ""
  let use_image_queue_string := if c.use_image_queue then "--use_image_queue" else ""
  let ncores_string := if c.ncores > 1 then "--ncores " ++ toString c.ncores else ""
  let quiet_string := if c.quiet_mode then "--quiet" else ""
  let confidence_threshold_string := match c.json_threshold with
    | some t => "--threshold " ++ t
    | none => ""
  let overwrite_handling_string := "--overwrite_handling " ++ c.overwrite_handling
  let base := cuda_string ++ "python run_detector_batch.py \"" ++ c.model_file ++ "\" \""
    ++ chunk_file ++ "\" \"" ++ output_fn ++ "\" " ++ checkpoint_frequency_string c ++ " "
    ++ checkpoint_path_string c checkpoint_filename ++ " " ++ use_image_queue_string ++ " "
    ++ ncores_string ++ " " ++ quiet_string ++ " " ++ image_size_string ++ " "
    ++ confidence_threshold_string ++ " " ++ overwrite_handling_string
  let base1 := if c.include_image_size then base ++ " --include_image_size" else base
  let base2 := if c.include_image_timestamp then base1 ++ " --include_image_timestamp" else base1
  let base3 := if c.include_exif_data then base2 ++ " --include_exif_data" else base2
  match c.detector_options with
  | some d => base3 ++ " --detector_options \"" ++ d ++ "\""
  | none => base3

/-- Lines 548-551: the resume command exists exactly when
`checkpoint_frequency is not None`, and is the task command plus the
resume-from-checkpoint flag. -/
def buildResumeCommand (c : RunConfig) (cmd checkpoint_filename : String) : Option String :=
  if c.checkpoint_frequency.isSome then
    some (cmd ++ " --resume_from_checkpoint \"" ++ checkpoint_filename ++ "\"")
  else none

/-- The command text and optional resume command attached to one task. -/
structure GeneratedTask where
  command : String
  resume_command : Option String
  deriving Repr, DecidableEq

/-- Script generation for one task (lines 382-566, POSIX
`run_detector_batch` branch): derive paths by suffix substitution, assign a
GPU by `i_task mod n_gpus` (or the fixed default for a single GPU), render
the command, and render the resume command when checkpointing is on. -/
def generateTask (c : RunConfig) (i_task n_gpus default_gpu : Nat)
    (chunk_file : String) : GeneratedTask :=
  let gpu_number := if n_gpus > 1 then i_task % n_gpus else default_gpu
  let checkpoint_filename := strReplace chunk_file ".json" "_checkpoint.json"
  let output_fn := strReplace chunk_file ".json" "_results.json"
  let cmd := buildCommand c gpu_number chunk_file output_fn checkpoint_filename
  ⟨cmd, buildResumeCommand c cmd checkpoint_filename⟩

/-- A JSON value loaded from a persisted chunk file; only arrays of strings
are legal chunk manifests. -/
inductive LoadedJson where
  | arr (items : List String)
  | str (s : String)
  | num (n : Int)
  | obj
  deriving Repr, DecidableEq

/-- Recovery loop of the enumeration cell (lines 316-321): load every chunk
file, assert each is a list, and concatenate. -/
def loadChunkFiles : List LoadedJson → Option (List String)
  | [] => some []
  | LoadedJson.arr items :: rest => (loadChunkFiles rest).map (fun r => items ++ r)
  | _ :: _ => none

/-- Recovery branch result (line 322): the sorted union of the loaded
chunks. -/
def recoveredImages (files : List LoadedJson) : Option (List String) :=
  (loadChunkFiles files).map sortStrings

/-- Enumeration branch (lines 331-335): sort the enumerated files and drop
recycle-bin and system-volume entries. -/
def enumerateImages (raw : List String) : List String :=
  (sortStrings raw).filter
    (fun fn => !(strStartsWith fn "$RECYCLE" || strStartsWith fn "System Volume Information"))

theorem flatten_filter_nonempty (L : List (List String)) :
    (L.filter (fun c => !c.isEmpty)).flatten = L.flatten := by
  induction L with
  | nil => rfl
  | cons c rest ih =>
    by_cases h : c.isEmpty
    · have hc : c = [] := by cases c <;> simp_all [List.isEmpty]
      simp [hc, List.filter, ih]
    · simp [List.filter, h, ih]

theorem splitChunksRaw_flatten : ∀ (n : Nat) (l : List String),
    (splitChunksRaw l (n + 1)).flatten = l := by
  intro n
  induction n with
  | zero => intro l; simp [splitChunksRaw]
  | succ n ih =>
    intro l
    rw [splitChunksRaw, List.flatten_cons, ih (l.drop ((l.length + (n + 1)) / (n + 1 + 1)))]
    exact List.take_append_drop _ l

theorem ceil_div_le (len n : Nat) : (len + n) / (n + 1) ≤ len := by
  rcases Nat.eq_zero_or_pos len with h | h
  · subst h
    simp [Nat.div_eq_of_lt (show n < n + 1 by omega)]
  · apply Nat.div_le_of_le_mul
    have hn : n ≤ len * n := Nat.le_mul_of_pos_left n h
    have : (n + 1) * len = len * n + len := by ring
    omega

theorem ceil_div_pos (len n : Nat) (h : 0 < len) : 0 < (len + n) / (n + 1) :=
  Nat.div_pos (by omega) (Nat.succ_pos n)

theorem ceil_div_eq (len n : Nat) :
    (len + n) / (n + 1) =
      len / (n + 1) + (if len % (n + 1) = 0 then 0 else 1) := by
  obtain ⟨k, m, hm, he⟩ : ∃ k m, m < n + 1 ∧ len = (n + 1) * k + m :=
    ⟨len / (n + 1), len % (n + 1), Nat.mod_lt _ (Nat.succ_pos n),
      (Nat.div_add_mod len (n + 1)).symm⟩
  subst he
  have hmod : ((n + 1) * k + m) % (n + 1) = m := by
    rw [Nat.mul_add_mod]; exact Nat.mod_eq_of_lt hm
  rw [Nat.add_assoc, Nat.mul_add_div (Nat.succ_pos n), Nat.mul_add_div (Nat.succ_pos n),
    hmod, Nat.div_eq_of_lt hm]
  by_cases h0 : m = 0
  · subst h0
    simp [Nat.div_eq_of_lt (show n < n + 1 by omega)]
  · have h1 : (m + n) / (n + 1) = 1 := by
      apply Nat.div_eq_of_lt_le
      · omega
      · omega
    rw [h1]
    simp [h0]

theorem splitChunksRaw_length_mem : ∀ (n : Nat) (l : List String) (c : List String),
    c ∈ splitChunksRaw l (n + 1) →
    c.length = l.length / (n + 1) ∨ c.length = l.length / (n + 1) + 1 := by
  intro n
  induction n with
  | zero =>
    intro l c hc
    simp only [splitChunksRaw, List.mem_singleton] at hc
    subst hc
    left
    simp [Nat.div_one]
  | succ n ih =>
    intro l c hc
    rw [splitChunksRaw] at hc
    rcases List.mem_cons.mp hc with h | h
    · subst h
      rw [List.length_take, min_eq_left (ceil_div_le l.length (n + 1))]
      rw [ceil_div_eq l.length (n + 1)]
      by_cases h0 : l.length % (n + 2) = 0 <;> simp [h0]
    · have hrec := ih (l.drop ((l.length + (n + 1)) / (n + 2))) c h
      rw [List.length_drop] at hrec
      suffices hdiv :
          (l.length - (l.length + (n + 1)) / (n + 2)) / (n + 1) = l.length / (n + 2) by
        rw [hdiv] at hrec
        exact hrec
      obtain ⟨k, m, hm, he⟩ : ∃ k m, m < n + 2 ∧ l.length = (n + 2) * k + m :=
        ⟨l.length / (n + 2), l.length % (n + 2), Nat.mod_lt _ (by omega),
          (Nat.div_add_mod l.length (n + 2)).symm⟩
      have hmod : ((n + 2) * k + m) % (n + 2) = m := by
        rw [Nat.mul_add_mod]; exact Nat.mod_eq_of_lt hm
      have hdivk : ((n + 2) * k + m) / (n + 2) = k := by
        rw [Nat.mul_add_div (by omega), Nat.div_eq_of_lt hm, Nat.add_zero]
      rw [he, hdivk, ceil_div_eq ((n + 2) * k + m) (n + 1), hdivk, hmod]
      have hexp : (n + 2) * k = (n + 1) * k + k := by ring
      by_cases h0 : m = 0
      · subst h0
        rw [if_pos rfl]
        have hsub : (n + 2) * k + 0 - (k + 0) = (n + 1) * k := by omega
        rw [hsub, Nat.mul_div_cancel_left k (show 0 < n + 1 by omega)]
      · rw [if_neg h0]
        have hsub : (n + 2) * k + m - (k + 1) = (n + 1) * k + (m - 1) := by omega
        rw [hsub, Nat.mul_add_div (show 0 < n + 1 by omega),
          Nat.div_eq_of_lt (show m - 1 < n + 1 by omega), Nat.add_zero]

theorem splitChunksRaw_nil : ∀ n : Nat, splitChunksRaw [] n = List.replicate n [] := by
  intro n
  induction n with
  | zero => rfl
  | succ n ih => simp [splitChunksRaw, ih, List.replicate_succ]

theorem filter_replicate_nil (n : Nat) :
    (List.replicate n ([] : List String)).filter (fun c => !c.isEmpty) = [] := by
  induction n with
  | zero => rfl
  | succ n ih => simp [List.replicate_succ, List.filter, ih]

theorem split_length : ∀ (n : Nat) (l : List String),
    (split_list_into_n_chunks l n).length = min n l.length := by
  intro n
  induction n with
  | zero => intro l; simp [split_list_into_n_chunks, splitChunksRaw]
  | succ n ih =>
    intro l
    rcases l with _ | ⟨a, t⟩
    · simp [split_list_into_n_chunks, splitChunksRaw_nil, filter_replicate_nil]
    · set l := a :: t with hl
      have hlen : 0 < l.length := by simp [hl]
      set sz := (l.length + n) / (n + 1) with hsz
      have hszpos : 0 < sz := ceil_div_pos l.length n hlen
      have hszle : sz ≤ l.length := ceil_div_le l.length n
      have hne : (l.take sz).isEmpty = false := by
        have : (l.take sz).length = min sz l.length := List.length_take sz l
        have hpos : 0 < (l.take sz).length := by omega
        cases htk : l.take sz with
        | nil => rw [htk] at hpos; simp at hpos
        | cons x xs => simp [List.isEmpty]
      have hstep : split_list_into_n_chunks l (n + 1) =
          l.take sz :: split_list_into_n_chunks (l.drop sz) n := by
        rw [split_list_into_n_chunks, splitChunksRaw]
        simp [List.filter, hne, split_list_into_n_chunks, hsz]
      rw [hstep]
      have ihd := ih (l.drop sz)
      rw [List.length_drop] at ihd
      simp only [List.length_cons, ihd]
      obtain ⟨k, m, hm, he⟩ : ∃ k m, m < n + 1 ∧ l.length = (n + 1) * k + m :=
        ⟨l.length / (n + 1), l.length % (n + 1), Nat.mod_lt _ (Nat.succ_pos n),
          (Nat.div_add_mod l.length (n + 1)).symm⟩
      have hmod : l.length % (n + 1) = m := by rw [he, Nat.mul_add_mod]; exact Nat.mod_eq_of_lt hm
      have hdivk : l.length / (n + 1) = k := by
        rw [he, Nat.mul_add_div (Nat.succ_pos n), Nat.div_eq_of_lt hm, Nat.add_zero]
      have hszval : sz = k + if m = 0 then 0 else 1 := by
        rw [hsz, ceil_div_eq l.length n, hdivk, hmod]
      have hexp : (n + 1) * k = n * k + k := by ring
      by_cases h0 : m = 0
      · rw [if_pos h0] at hszval
        rcases Nat.eq_zero_or_pos k with hk | hk
        · rw [hk, Nat.mul_zero] at he
          omega
        · have hA : n ≤ n * k := by
            calc n = n * 1 := by ring
            _ ≤ n * k := Nat.mul_le_mul_left n hk
          omega
      · rw [if_neg h0] at hszval
        rcases Nat.eq_zero_or_pos k with hk | hk
        · rw [hk, Nat.mul_zero] at he
          omega
        · have hA : n ≤ n * k := by
            calc n = n * 1 := by ring
            _ ≤ n * k := Nat.mul_le_mul_left n hk
          omega

/-- C1: for every image list of size `m` and chunk count `n > 0`, the chunk
planner produces `n` chunks (`min n m` when `m < n`) whose sizes differ by at
most one, and concatenating the chunks in index order reproduces the full
sorted image list exactly, each path once (given the paths are distinct). -/
theorem chunk_planning_correct (l : List String) (n : Nat) (hn : 0 < n) (hnd : l.Nodup) :
    (split_list_into_n_chunks l n).length = (if l.length < n then min n l.length else n)
    ∧ (∀ c₁ ∈ split_list_into_n_chunks l n, ∀ c₂ ∈ split_list_into_n_chunks l n,
        c₁.length ≤ c₂.length + 1)
    ∧ (split_list_into_n_chunks l n).flatten = l
    ∧ ∀ p ∈ l, (split_list_into_n_chunks l n).flatten.count p = 1 := by
  obtain ⟨n', rfl⟩ : ∃ n', n = n' + 1 := ⟨n - 1, by omega⟩
  refine ⟨?_, ?_, ?_, ?_⟩
  · rw [split_length]
    split_ifs with h <;> omega
  · intro c₁ h₁ c₂ h₂
    have g₁ := splitChunksRaw_length_mem n' l c₁ (List.mem_of_mem_filter h₁)
    have g₂ := splitChunksRaw_length_mem n' l c₂ (List.mem_of_mem_filter h₂)
    omega
  · rw [split_list_into_n_chunks, flatten_filter_nonempty, splitChunksRaw_flatten]
  · intro p hp
    rw [split_list_into_n_chunks, flatten_filter_nonempty, splitChunksRaw_flatten]
    exact List.count_eq_one_of_mem hnd hp

/-- C1 witness: the planner at a concrete input, hypotheses discharged. -/
theorem chunk_planning_correct_witness :
    (split_list_into_n_chunks ["a", "b", "c"] 2).flatten = ["a", "b", "c"]
    ∧ (split_list_into_n_chunks ["a", "b", "c"] 2).length =
        (if (["a", "b", "c"] : List String).length < 2
         then min 2 (["a", "b", "c"] : List String).length else 2) :=
  ⟨(chunk_planning_correct ["a", "b", "c"] 2 (by decide) (by decide)).2.2.1,
    (chunk_planning_correct ["a", "b", "c"] 2 (by decide) (by decide)).1⟩

theorem addTaskImages_sound : ∀ (ims : List ImageRecord) (processed p' : List String),
    addTaskImages processed ims = some p' →
    p' = (ims.map (fun im => im.file)).reverse ++ processed
    ∧ (ims.map (fun im => im.file)).Nodup
    ∧ ∀ f ∈ ims.map (fun im => im.file), f ∉ processed := by
  intro ims
  induction ims with
  | nil =>
    intro processed p' h
    rw [addTaskImages] at h
    cases h
    simp
  | cons im rest ih =>
    intro processed p' h
    rw [addTaskImages] at h
    by_cases hc : im.file ∈ processed
    · rw [if_pos hc] at h
      cases h
    · rw [if_neg hc] at h
      obtain ⟨heq, hnd, hnotin⟩ := ih _ _ h
      refine ⟨?_, ?_, ?_⟩
      · rw [heq]
        simp
      · rw [List.map_cons, List.nodup_cons]
        refine ⟨fun hmem => ?_, hnd⟩
        exact hnotin _ hmem (List.mem_cons_self _ _)
      · intro f hf
        rw [List.map_cons, List.mem_cons] at hf
        rcases hf with rfl | hf
        · exact hc
        · intro hmem
          exact hnotin _ hf (List.mem_cons_of_mem _ hmem)

theorem addTaskImages_complete : ∀ (ims : List ImageRecord) (processed : List String),
    (ims.map (fun im => im.file)).Nodup →
    (∀ f ∈ ims.map (fun im => im.file), f ∉ processed) →
    addTaskImages processed ims = some ((ims.map (fun im => im.file)).reverse ++ processed) := by
  intro ims
  induction ims with
  | nil =>
    intro processed _ _
    simp [addTaskImages]
  | cons im rest ih =>
    intro processed hnd hnotin
    rw [List.map_cons, List.nodup_cons] at hnd
    rw [addTaskImages, if_neg (hnotin im.file (by simp))]
    rw [ih (im.file :: processed) hnd.2 ?_]
    · simp
    · intro f hf
      rw [List.mem_cons]
      rintro (rfl | hmem)
      · exact hnd.1 hf
      · exact hnotin f (List.mem_cons_of_mem _ hf) hmem

theorem mergeTasks_sound : ∀ (tasks : List TaskResults)
    (meta : Option (String × List (String × String)))
    (processed : List String) (acc images : List ImageRecord),
    mergeTasks meta processed acc tasks = some images →
    images = acc ++ tasks.flatMap (fun t => t.images)
    ∧ (tasks.flatMap taskFiles).Nodup
    ∧ ∀ f ∈ tasks.flatMap taskFiles, f ∉ processed := by
  intro tasks
  induction tasks with
  | nil =>
    intro meta processed acc images h
    rcases meta with _ | ⟨fv, dc⟩ <;>
      · rw [mergeTasks] at h
        cases h
        simp
  | cons t rest ih =>
    intro meta processed acc images h
    have hstep : ∃ processed2,
        addTaskImages processed t.images = some processed2
        ∧ ∃ meta2, mergeTasks meta2 processed2 (acc ++ t.images) rest = some images := by
      rcases meta with _ | ⟨fv, dc⟩
      · rw [mergeTasks] at h
        cases ha : addTaskImages processed t.images with
        | none => rw [ha] at h; cases h
        | some processed2 => rw [ha] at h; exact ⟨processed2, rfl, _, h⟩
      · rw [mergeTasks] at h
        by_cases hcond : fv = t.format_version ∧ dc = t.detection_categories
        · rw [if_pos hcond] at h
          cases ha : addTaskImages processed t.images with
          | none => rw [ha] at h; cases h
          | some processed2 => rw [ha] at h; exact ⟨processed2, rfl, _, h⟩
        · rw [if_neg hcond] at h
          cases h
    obtain ⟨processed2, ha, meta2, hrest⟩ := hstep
    obtain ⟨hp2, hndt, hnott⟩ := addTaskImages_sound t.images processed processed2 ha
    obtain ⟨himg, hndr, hnotr⟩ := ih meta2 processed2 (acc ++ t.images) images hrest
    refine ⟨by rw [himg]; simp, ?_, ?_⟩
    · rw [List.flatMap_cons, List.nodup_append]
      refine ⟨hndt, hndr, fun a hat har => ?_⟩
      have : a ∈ processed2 := by
        rw [hp2, List.mem_append]
        exact Or.inl (List.mem_reverse.mpr hat)
      exact hnotr a har this
    · intro f hf
      rw [List.flatMap_cons, List.mem_append] at hf
      rcases hf with hf | hf
      · exact hnott f hf
      · intro hmem
        have : f ∈ processed2 := by
          rw [hp2, List.mem_append]
          exact Or.inr hmem
        exact hnotr f hf this

theorem mergeTasks_complete : ∀ (tasks : List TaskResults) (fv : String)
    (dc : List (String × String)) (meta : Option (String × List (String × String)))
    (processed : List String) (acc : List ImageRecord),
    (∀ t ∈ tasks, t.format_version = fv ∧ t.detection_categories = dc) →
    (meta = none ∨ meta = some (fv, dc)) →
    (tasks.flatMap taskFiles).Nodup →
    (∀ f ∈ tasks.flatMap taskFiles, f ∉ processed) →
    mergeTasks meta processed acc tasks = some (acc ++ tasks.flatMap (fun t => t.images)) := by
  intro tasks
  induction tasks with
  | nil =>
    intro fv dc meta processed acc _ hmeta _ _
    rcases hmeta with rfl | rfl <;> simp [mergeTasks]
  | cons t rest ih =>
    intro fv dc meta processed acc hall hmeta hnd hnot
    rw [List.flatMap_cons, List.nodup_append] at hnd
    obtain ⟨hndt, hndr, hdisj⟩ := hnd
    have hnott : ∀ f ∈ taskFiles t, f ∉ processed := fun f hf =>
      hnot f (by rw [List.flatMap_cons, List.mem_append]; exact Or.inl hf)
    have ha := addTaskImages_complete t.images processed hndt hnott
    have hnotr : ∀ f ∈ rest.flatMap taskFiles,
        f ∉ (t.images.map (fun im => im.file)).reverse ++ processed := by
      intro f hf
      rw [List.mem_append, List.mem_reverse]
      rintro (hmem | hmem)
      · exact hdisj hmem hf
      · exact hnot f (by rw [List.flatMap_cons, List.mem_append]; exact Or.inr hf) hmem
    have hallr : ∀ t' ∈ rest, t'.format_version = fv ∧ t'.detection_categories = dc :=
      fun t' ht' => hall t' (List.mem_cons_of_mem _ ht')
    obtain ⟨hfv, hdc⟩ := hall t (List.mem_cons_self _ _)
    have hrec := ih fv dc (some (t.format_version, t.detection_categories)) _
      (acc ++ t.images) hallr (by rw [hfv, hdc]; exact Or.inr rfl) hndr hnotr
    rcases hmeta with rfl | rfl
    · rw [mergeTasks, ha]
      rw [List.flatMap_cons, ← List.append_assoc]
      exact hrec
    · rw [mergeTasks, if_pos ⟨hfv.symm, hdc.symm⟩, ha]
      rw [List.flatMap_cons, ← List.append_assoc]
      rw [hfv, hdc] at hrec
      exact hrec

theorem taskFiles_forall₂ : ∀ (tasks : List TaskResults) (manifests : List (List String)),
    tasks.length = manifests.length →
    (∀ p ∈ tasks.zip manifests, (taskFiles p.1).Perm p.2) →
    List.Forall₂ (fun a b => List.Perm a b) (tasks.map taskFiles) manifests := by
  intro tasks
  induction tasks with
  | nil =>
    intro manifests hlen _
    cases manifests with
    | nil => exact List.Forall₂.nil
    | cons m ms => simp at hlen
  | cons t ts ih =>
    intro manifests hlen hperm
    cases manifests with
    | nil => simp at hlen
    | cons m ms =>
      refine List.Forall₂.cons (hperm (t, m) (by simp [List.zip_cons_cons])) ?_
      exact ih ms (by simpa using hlen) fun p hp =>
        hperm p (by rw [List.zip_cons_cons]; exact List.mem_cons_of_mem _ hp)

theorem flatMap_taskFiles_perm (tasks : List TaskResults) (manifests : List (List String))
    (hlen : tasks.length = manifests.length)
    (hperm : ∀ p ∈ tasks.zip manifests, (taskFiles p.1).Perm p.2) :
    (tasks.flatMap taskFiles).Perm manifests.flatten := by
  rw [List.flatMap_def]
  exact List.Perm.flatten_congr (taskFiles_forall₂ tasks manifests hlen hperm)

theorem mergeResults_cross_dup (pre mid post : List TaskResults) (t₁ t₂ : TaskResults)
    (p : String) (n_all : Nat) (h₁ : p ∈ taskFiles t₁) (h₂ : p ∈ taskFiles t₂) :
    mergeResults (pre ++ t₁ :: mid ++ t₂ :: post) n_all = none := by
  cases hm : mergeTasks none [] [] (pre ++ t₁ :: mid ++ t₂ :: post) with
  | none => rw [mergeResults, hm]
  | some images =>
    exfalso
    obtain ⟨-, hnd, -⟩ := mergeTasks_sound _ _ _ _ _ hm
    rw [List.nodup_iff_count_le_one] at hnd
    have hcount := hnd p
    have e1 : 0 < (taskFiles t₁).count p := List.count_pos_iff.mpr h₁
    have e2 : 0 < (taskFiles t₂).count p := List.count_pos_iff.mpr h₂
    simp only [List.flatMap_append, List.flatMap_cons, List.count_append] at hcount
    omega

/-- C2: if every task's result paths are a permutation of its (duplicate-free)
manifest, the chunk manifests are pairwise disjoint, and all tasks share the
same metadata, the merge produces a combined result whose record count is the
sum of the chunk sizes and whose paths are duplicate-free; and whenever the
same path appears in two different tasks' results, the merge fails. -/
theorem merge_pass_correct :
    (∀ (tasks : List TaskResults) (manifests : List (List String)) (fv : String)
        (dc : List (String × String)),
        tasks.length = manifests.length →
        (∀ p ∈ tasks.zip manifests, (taskFiles p.1).Perm p.2) →
        (∀ m ∈ manifests, m.Nodup) →
        manifests.Pairwise List.Disjoint →
        (∀ t ∈ tasks, t.format_version = fv ∧ t.detection_categories = dc) →
        ∃ images,
          mergeResults tasks (manifests.map List.length).sum = some images
          ∧ images.length = (manifests.map List.length).sum
          ∧ (images.map (fun im => im.file)).Nodup)
    ∧ (∀ (pre mid post : List TaskResults) (t₁ t₂ : TaskResults) (p : String) (n_all : Nat),
        p ∈ taskFiles t₁ → p ∈ taskFiles t₂ →
        mergeResults (pre ++ t₁ :: mid ++ t₂ :: post) n_all = none) := by
  constructor
  · intro tasks manifests fv dc hlen hperm hnd hdisj hmeta
    have hflat := flatMap_taskFiles_perm tasks manifests hlen hperm
    have hndflat : (tasks.flatMap taskFiles).Nodup := by
      rw [hflat.nodup_iff, List.nodup_flatten]
      exact ⟨hnd, hdisj⟩
    have hmt := mergeTasks_complete tasks fv dc none [] [] hmeta (Or.inl rfl) hndflat
      (by simp)
    have hmap : (tasks.flatMap (fun t => t.images)).map (fun im => im.file) =
        tasks.flatMap taskFiles := by
      rw [List.map_flatMap]
      rfl
    have hlensum : (tasks.flatMap (fun t => t.images)).length = (manifests.map List.length).sum := by
      have := hflat.length_eq
      rw [List.length_flatten] at this
      calc (tasks.flatMap (fun t => t.images)).length
          = ((tasks.flatMap (fun t => t.images)).map (fun im => im.file)).length := by
            rw [List.length_map]
        _ = (tasks.flatMap taskFiles).length := by rw [hmap]
        _ = (manifests.map List.length).sum := this
    have hdedup : ((tasks.flatMap fun t => t.images).map (fun im => im.file)).dedup.length =
        (tasks.flatMap fun t => t.images).length := by
      rw [hmap, List.dedup_eq_self.mpr hndflat, ← hmap, List.length_map]
    refine ⟨tasks.flatMap (fun t => t.images), ?_, hlensum, by rw [hmap]; exact hndflat⟩
    rw [mergeResults, hmt, List.nil_append]
    exact if_pos ⟨hlensum, hdedup⟩
  · intro pre mid post t₁ t₂ p n_all h₁ h₂
    exact mergeResults_cross_dup pre mid post t₁ t₂ p n_all h₁ h₂

/-- C2 counterexample to the claim as stated: both tasks' result paths are
exactly their disjoint one-element manifests (the manifest-to-result mapping
is complete and the chunks are disjoint), yet the merge fails, because the
two tasks carry different format versions (lines 763-764). -/
theorem merge_claim_cex :
    taskFiles ⟨"1.3", [("1", "animal")], [⟨"/r/a", none⟩]⟩ = ["/r/a"]
    ∧ taskFiles ⟨"1.4", [("1", "animal")], [⟨"/r/b", none⟩]⟩ = ["/r/b"]
    ∧ mergeResults
        [⟨"1.3", [("1", "animal")], [⟨"/r/a", none⟩]⟩,
         ⟨"1.4", [("1", "animal")], [⟨"/r/b", none⟩]⟩] 2 = none := by
  refine ⟨rfl, rfl, ?_⟩
  rfl

/-- C2 witness: the amended merge theorem applied at a concrete two-task job. -/
theorem merge_pass_correct_witness :
    (∃ images,
        mergeResults
          [⟨"1.3", [("1", "animal")], [⟨"/r/a", none⟩]⟩,
           ⟨"1.3", [("1", "animal")], [⟨"/r/b", none⟩, ⟨"/r/c", none⟩]⟩]
          ((([["/r/a"], ["/r/b", "/r/c"]] : List (List String)).map List.length).sum) = some images
        ∧ images.length = (([["/r/a"], ["/r/b", "/r/c"]] : List (List String)).map List.length).sum
        ∧ (images.map (fun im => im.file)).Nodup)
    ∧ mergeResults
        [⟨"1.3", [], [⟨"/r/a", none⟩]⟩, ⟨"1.3", [], [⟨"/r/a", none⟩]⟩] 2 = none := by
  constructor
  · exact merge_pass_correct.1
      [⟨"1.3", [("1", "animal")], [⟨"/r/a", none⟩]⟩,
       ⟨"1.3", [("1", "animal")], [⟨"/r/b", none⟩, ⟨"/r/c", none⟩]⟩]
      [["/r/a"], ["/r/b", "/r/c"]] "1.3" [("1", "animal")]
      (by decide) (by decide) (by decide) (by simp [List.Disjoint]) (by decide)
  · exact merge_pass_correct.2 [] [] [] ⟨"1.3", [], [⟨"/r/a", none⟩]⟩
      ⟨"1.3", [], [⟨"/r/a", none⟩]⟩ "/r/a" 2 (by decide) (by decide)

theorem collectMissingOutputs_eq (expected existing : List String) :
    collectMissingOutputs expected existing
      = expected.filter (fun f => decide (f ∉ existing)) := by
  induction expected with
  | nil => rfl
  | cons f rest ih =>
    rw [collectMissingOutputs]
    by_cases h : f ∈ existing
    · rw [if_pos h, ih, List.filter_cons]
      simp [h]
    · rw [if_neg h, ih, List.filter_cons]
      simp [h]

theorem checkManifestComplete_ok_iff : ∀ (imgs keys : List String),
    checkManifestComplete imgs keys = Except.ok () ↔ ∀ fn ∈ imgs, fn ∈ keys := by
  intro imgs keys
  induction imgs with
  | nil => simp [checkManifestComplete]
  | cons fn rest ih =>
    rw [checkManifestComplete]
    by_cases h : fn ∈ keys
    · rw [if_pos h, ih, List.forall_mem_cons]
      simp [h]
    · rw [if_neg h]
      simp [h, List.forall_mem_cons]

theorem checkManifestComplete_error_first : ∀ (imgs keys : List String) (fn : String),
    checkManifestComplete imgs keys = Except.error fn →
    fn ∉ keys ∧ ∃ pre post, imgs = pre ++ fn :: post ∧ ∀ g ∈ pre, g ∈ keys := by
  intro imgs
  induction imgs with
  | nil =>
    intro keys fn h
    cases h
  | cons g rest ih =>
    intro keys fn h
    rw [checkManifestComplete] at h
    by_cases hg : g ∈ keys
    · rw [if_pos hg] at h
      obtain ⟨hnk, pre, post, heq, hall⟩ := ih keys fn h
      refine ⟨hnk, g :: pre, post, by rw [heq]; rfl, ?_⟩
      intro x hx
      rcases List.mem_cons.mp hx with rfl | hx'
      · exact hg
      · exact hall x hx'
    · rw [if_neg hg] at h
      have hfn : g = fn := by injection h
      subst hfn
      exact ⟨hg, [], rest, rfl, by simp⟩

theorem mergeResults_length : ∀ (tasks : List TaskResults) (n_all : Nat)
    (images : List ImageRecord),
    mergeResults tasks n_all = some images → images.length = n_all := by
  intro tasks n_all images h
  rw [mergeResults] at h
  split at h
  · cases h
  · split at h
    · rename_i hc
      cases h
      exact hc.1
    · cases h

/-- C3 (amended): all four completeness-error kinds are fatal, but only the
missing-output-file gate reports the full list of offending items; the
manifest-completeness assert and the cross-chunk duplicate assert stop at
the first offending item, and the merged-count assert compares two counts. -/
theorem completeness_errors_amended :
    (∀ (expected existing : List String) (f : String),
        f ∈ collectMissingOutputs expected existing ↔ f ∈ expected ∧ f ∉ existing)
    ∧ (∀ (expected existing : List String) (l : List String),
        checkOutputFiles expected existing = Except.error l →
          l = collectMissingOutputs expected existing ∧ l ≠ [])
    ∧ (∀ (imgs keys : List String),
        checkManifestComplete imgs keys = Except.ok () ↔ ∀ fn ∈ imgs, fn ∈ keys)
    ∧ (∀ (imgs keys : List String) (fn : String),
        checkManifestComplete imgs keys = Except.error fn →
          fn ∉ keys ∧ ∃ pre post, imgs = pre ++ fn :: post ∧ ∀ g ∈ pre, g ∈ keys)
    ∧ (∀ (pre mid post : List TaskResults) (t₁ t₂ : TaskResults) (p : String) (n_all : Nat),
        p ∈ taskFiles t₁ → p ∈ taskFiles t₂ →
        mergeResults (pre ++ t₁ :: mid ++ t₂ :: post) n_all = none)
    ∧ (∀ (tasks : List TaskResults) (n_all : Nat) (images : List ImageRecord),
        mergeResults tasks n_all = some images → images.length = n_all) := by
  refine ⟨?_, ?_, checkManifestComplete_ok_iff, checkManifestComplete_error_first,
    mergeResults_cross_dup, mergeResults_length⟩
  · intro expected existing f
    rw [collectMissingOutputs_eq, List.mem_filter]
    simp
  · intro expected existing l h
    rw [checkOutputFiles] at h
    by_cases hc : collectMissingOutputs expected existing = []
    · rw [if_pos hc] at h
      cases h
    · rw [if_neg hc] at h
      have : l = collectMissingOutputs expected existing := by injection h; simp_all
      exact ⟨this, this ▸ hc⟩

/-- C3 counterexample to the claim as stated: with a two-image manifest and
no result records, both images are offending items, yet the
manifest-completeness assert reports only the first one. -/
theorem completeness_first_only_cex :
    checkManifestComplete ["/r/a", "/r/b"] [] = Except.error "/r/a"
    ∧ (["/r/a", "/r/b"] : List String).filter (fun f => decide (f ∉ ([] : List String)))
        = ["/r/a", "/r/b"] :=
  ⟨rfl, by decide⟩

/-- C3 witness: the amended theorem applied at concrete inputs. -/
theorem completeness_errors_amended_witness :
    ("/r/b" ∈ collectMissingOutputs ["/r/a", "/r/b"] ["/r/a"] ↔
        "/r/b" ∈ (["/r/a", "/r/b"] : List String) ∧ "/r/b" ∉ (["/r/a"] : List String))
    ∧ mergeResults [(⟨"1.3", [], [⟨"/r/x", none⟩]⟩ : TaskResults),
        ⟨"1.3", [], [⟨"/r/x", none⟩]⟩] 5 = none
    ∧ ("/r/a" ∉ ([] : List String)
        ∧ ∃ pre post, (["/r/a", "/r/b"] : List String) = pre ++ "/r/a" :: post
          ∧ ∀ g ∈ pre, g ∈ ([] : List String)) :=
  ⟨completeness_errors_amended.1 ["/r/a", "/r/b"] ["/r/a"] "/r/b",
   completeness_errors_amended.2.2.2.2.1 [] [] [] ⟨"1.3", [], [⟨"/r/x", none⟩]⟩
     ⟨"1.3", [], [⟨"/r/x", none⟩]⟩ "/r/x" 5 (by decide) (by decide),
   completeness_errors_amended.2.2.2.1 ["/r/a", "/r/b"] [] "/r/a" (by rfl)⟩

theorem normalizeRecord_failure (input_path : String) (im : ImageRecord) :
    (normalizeRecord input_path im).failure = im.failure := by
  rw [normalizeRecord]
  split <;> rfl

theorem processTaskImages_ok : ∀ (ims : List ImageRecord) (input_path : String)
    (task_images : List String),
    (∀ im ∈ ims, strStartsWith (normalizeRecord input_path im).file input_path = true
      ∧ (normalizeRecord input_path im).file ∈ task_images) →
    (∀ im ∈ ims, im.failure ≠ some none) →
    processTaskImages input_path task_images ims =
      some (ims.map (fun im =>
          ((normalizeRecord input_path im).file, normalizeRecord input_path im)),
        ims.countP (fun im => im.failure.isSome)) := by
  intro ims
  induction ims with
  | nil => intro ip ti _ _; rfl
  | cons im rest ih =>
    intro ip ti hvalid hnn
    have hv := hvalid im (List.mem_cons_self _ _)
    have hn := hnn im (List.mem_cons_self _ _)
    have hrec := ih ip ti (fun x hx => hvalid x (List.mem_cons_of_mem _ hx))
      (fun x hx => hnn x (List.mem_cons_of_mem _ hx))
    rw [processTaskImages, if_pos hv, normalizeRecord_failure]
    cases hf : im.failure with
    | none => simp [hf, hrec, List.countP_cons]
    | some x =>
      cases x with
      | none => exact absurd hf hn
      | some s => simp [hf, hrec, List.countP_cons]

theorem processTaskImages_null_none : ∀ (ims : List ImageRecord) (input_path : String)
    (task_images : List String),
    (∀ im ∈ ims, strStartsWith (normalizeRecord input_path im).file input_path = true
      ∧ (normalizeRecord input_path im).file ∈ task_images) →
    (∃ im ∈ ims, im.failure = some none) →
    processTaskImages input_path task_images ims = none := by
  intro ims
  induction ims with
  | nil =>
    rintro ip ti _ ⟨im, him, -⟩
    exact absurd him (List.not_mem_nil _)
  | cons im rest ih =>
    rintro ip ti hvalid ⟨x, hx, hxn⟩
    have hv := hvalid im (List.mem_cons_self _ _)
    rw [processTaskImages, if_pos hv, normalizeRecord_failure]
    rcases List.mem_cons.mp hx with rfl | hx'
    · simp [hxn]
    · have hrec := ih ip ti (fun y hy => hvalid y (List.mem_cons_of_mem _ hy)) ⟨x, hx', hxn⟩
      cases hf : im.failure with
      | none => simp [hrec]
      | some y =>
        cases y with
        | none => simp
        | some s => simp [hrec]

/-- C9: during per-task validation a record is counted as a failure exactly
when it carries a `failure` key, and a present-but-null `failure` value makes
the scan fail with an assertion rather than counting the record either way. -/
theorem failure_marker_counting (input_path : String) (task_images : List String)
    (ims : List ImageRecord)
    (hvalid : ∀ im ∈ ims, strStartsWith (normalizeRecord input_path im).file input_path = true
      ∧ (normalizeRecord input_path im).file ∈ task_images) :
    ((∀ im ∈ ims, im.failure ≠ some none) →
      processTaskImages input_path task_images ims =
        some (ims.map (fun im =>
            ((normalizeRecord input_path im).file, normalizeRecord input_path im)),
          ims.countP (fun im => im.failure.isSome)))
    ∧ ((∃ im ∈ ims, im.failure = some none) →
      processTaskImages input_path task_images ims = none) :=
  ⟨fun hnn => processTaskImages_ok ims input_path task_images hvalid hnn,
   fun hex => processTaskImages_null_none ims input_path task_images hvalid hex⟩

/-- C9 witness: a record with a non-null failure marker counts once, a
record with a null marker aborts the scan. -/
theorem failure_marker_counting_witness :
    processTaskImages "/r" ["/r/a", "/r/b"] [⟨"/r/a", none⟩, ⟨"/r/b", some (some "err")⟩]
      = some ([("/r/a", ⟨"/r/a", none⟩), ("/r/b", ⟨"/r/b", some (some "err")⟩)], 1)
    ∧ processTaskImages "/r" ["/r/a"] [⟨"/r/a", some none⟩] = none :=
  ⟨(failure_marker_counting "/r" ["/r/a", "/r/b"]
      [⟨"/r/a", none⟩, ⟨"/r/b", some (some "err")⟩] (by decide)).1 (by decide),
   (failure_marker_counting "/r" ["/r/a"] [⟨"/r/a", some none⟩] (by decide)).2
     ⟨⟨"/r/a", some none⟩, by decide, rfl⟩⟩

theorem validateTask_ok (input_path : String) (task_images : List String)
    (ims : List ImageRecord)
    (hvalid : ∀ im ∈ ims, strStartsWith (normalizeRecord input_path im).file input_path = true
      ∧ (normalizeRecord input_path im).file ∈ task_images)
    (hnn : ∀ im ∈ ims, im.failure ≠ some none)
    (hcomp : ∀ fn ∈ task_images, ∃ im ∈ ims, (normalizeRecord input_path im).file = fn) :
    validateTask input_path task_images ims
      = some (ims.countP (fun im => im.failure.isSome)) := by
  have hkeys : ((ims.map (fun im =>
        ((normalizeRecord input_path im).file, normalizeRecord input_path im))).map Prod.fst)
      = ims.map (fun im => (normalizeRecord input_path im).file) := by
    rw [List.map_map]
    rfl
  have hok : checkManifestComplete task_images
      (ims.map (fun im => (normalizeRecord input_path im).file)) = Except.ok () := by
    rw [checkManifestComplete_ok_iff]
    intro fn hfn
    obtain ⟨im, him, heq⟩ := hcomp fn hfn
    rw [← heq]
    exact List.mem_map_of_mem _ him
  rw [validateTask]
  simp only [processTaskImages_ok ims input_path task_images hvalid hnn, hkeys, hok]

theorem totalFailures_ok : ∀ (tasks : List (List String × List ImageRecord))
    (input_path : String),
    (∀ t ∈ tasks,
      (∀ im ∈ t.2, strStartsWith (normalizeRecord input_path im).file input_path = true
        ∧ (normalizeRecord input_path im).file ∈ t.1)
      ∧ (∀ im ∈ t.2, im.failure ≠ some none)
      ∧ (∀ fn ∈ t.1, ∃ im ∈ t.2, (normalizeRecord input_path im).file = fn)) →
    totalFailures input_path tasks
      = some ((tasks.map (fun t => t.2.countP (fun im => im.failure.isSome))).sum) := by
  intro tasks
  induction tasks with
  | nil => intro ip _; rfl
  | cons t rest ih =>
    intro ip hall
    obtain ⟨hv, hn, hc⟩ := hall t (List.mem_cons_self _ _)
    have hrec := ih ip (fun x hx => hall x (List.mem_cons_of_mem _ hx))
    obtain ⟨imgs, ims⟩ := t
    rw [totalFailures]
    simp only [validateTask_ok ip imgs ims hv hn hc, hrec, List.map_cons, List.sum_cons]

/-- C4: after processing all tasks, the reconciliation tolerance gate fails
exactly when the job-wide total of non-null failure markers meets or exceeds
`max_tolerable_failed_images`, and passes for any total strictly below it. -/
theorem failure_tolerance_correct (input_path : String)
    (tasks : List (List String × List ImageRecord)) (max_tolerable : Nat)
    (hall : ∀ t ∈ tasks,
      (∀ im ∈ t.2, strStartsWith (normalizeRecord input_path im).file input_path = true
        ∧ (normalizeRecord input_path im).file ∈ t.1)
      ∧ (∀ im ∈ t.2, im.failure ≠ some none)
      ∧ (∀ fn ∈ t.1, ∃ im ∈ t.2, (normalizeRecord input_path im).file = fn)) :
    (reconcileTolerance input_path tasks max_tolerable = none ↔
      max_tolerable ≤ (tasks.map (fun t => t.2.countP (fun im => im.failure.isSome))).sum)
    ∧ ((tasks.map (fun t => t.2.countP (fun im => im.failure.isSome))).sum < max_tolerable →
      reconcileTolerance input_path tasks max_tolerable =
        some ((tasks.map (fun t => t.2.countP (fun im => im.failure.isSome))).sum)) := by
  have hgate : reconcileTolerance input_path tasks max_tolerable
      = if (tasks.map (fun t => t.2.countP (fun im => im.failure.isSome))).sum < max_tolerable
        then some ((tasks.map (fun t => t.2.countP (fun im => im.failure.isSome))).sum)
        else none := by
    rw [reconcileTolerance]
    simp only [totalFailures_ok tasks input_path hall, checkFailureTolerance]
    by_cases h :
        (tasks.map (fun t => t.2.countP (fun im => im.failure.isSome))).sum < max_tolerable <;>
      simp [h]
  rw [hgate]
  constructor
  · by_cases h :
        (tasks.map (fun t => t.2.countP (fun im => im.failure.isSome))).sum < max_tolerable <;>
      simp [h] <;> omega
  · intro h
    rw [if_pos h]

/-- C4 witness: one task with one failed image against a ceiling of 2. -/
theorem failure_tolerance_correct_witness :
    (reconcileTolerance "/r" [(["/r/a"], [⟨"/r/a", some (some "err")⟩])] 2 = none ↔
      2 ≤ ([(["/r/a"], [(⟨"/r/a", some (some "err")⟩ : ImageRecord)])].map
          (fun t => t.2.countP (fun im => im.failure.isSome))).sum)
    ∧ (([(["/r/a"], [(⟨"/r/a", some (some "err")⟩ : ImageRecord)])].map
          (fun t => t.2.countP (fun im => im.failure.isSome))).sum < 2 →
        reconcileTolerance "/r" [(["/r/a"], [⟨"/r/a", some (some "err")⟩])] 2 =
          some ([(["/r/a"], [(⟨"/r/a", some (some "err")⟩ : ImageRecord)])].map
            (fun t => t.2.countP (fun im => im.failure.isSome))).sum) :=
  failure_tolerance_correct "/r" [(["/r/a"], [⟨"/r/a", some (some "err")⟩])] 2 (by decide)

/-- C5 (amended): checkpointing is rejected in combination with each of the
other three modes, and augmentation with tiled inference is rejected; but
image-queue mode together with augmentation, and image-queue mode together
with tiled inference, both pass validation. -/
theorem validate_mode_conflicts :
    (∀ c : RunConfig, c.checkpoint_frequency.isSome = true →
        (c.use_image_queue = true ∨ c.augment = true ∨ c.use_tiled_inference = true) →
        validateConfig c = false)
    ∧ (∀ c : RunConfig, c.augment = true → c.use_tiled_inference = true →
        validateConfig c = false)
    ∧ validateConfig
        ⟨true, true, false, true, none, true, none, 1, none, false, false, false, none,
          "skip", "MDV5A"⟩ = true
    ∧ validateConfig
        ⟨true, false, true, false, none, true, none, 1, none, false, false, false, none,
          "skip", "MDV5A"⟩ = true := by
  refine ⟨?_, ?_, rfl, rfl⟩
  · intro c h1 h2
    cases hcf : c.checkpoint_frequency with
    | none => rw [hcf] at h1; cases h1
    | some f =>
      rcases h2 with h | h | h <;> simp [validateConfig, hcf, h]
  · intro c ha ht
    simp [validateConfig, ha, ht]

/-- C5 counterexample to the claim as stated: enabling two of the four modes
(image queue and tiled inference) is not rejected by the validation cell, so
script generation would proceed. -/
theorem mode_pair_not_rejected_cex :
    modeCount ⟨true, false, true, false, none, true, none, 1, none, false, false, false, none,
      "skip", "MDV5A"⟩ = 2
    ∧ validateConfig ⟨true, false, true, false, none, true, none, 1, none, false, false, false,
      none, "skip", "MDV5A"⟩ = true :=
  ⟨rfl, rfl⟩

/-- C5 witness: the amended theorem applied at concrete configurations. -/
theorem validate_mode_conflicts_witness :
    validateConfig ⟨true, false, false, false, some 10000, true, none, 1, none, false, false,
      false, none, "skip", "MDV5A"⟩ = false
    ∧ validateConfig ⟨false, true, true, true, none, true, none, 1, none, false, false,
      false, none, "skip", "MDV5A"⟩ = false :=
  ⟨validate_mode_conflicts.1 _ (by decide) (Or.inl (by decide)),
   validate_mode_conflicts.2.1 _ (by decide) (by decide)⟩

/-- C6: a resume command (and hence a resume script) is attached to a task
exactly when `checkpoint_frequency` is set — the code's notion of
checkpointing being enabled for resume generation (line 548) — and it is the
task's command plus the resume-from-checkpoint flag. -/
theorem resume_iff_checkpointing (c : RunConfig) (i_task n_gpus default_gpu : Nat)
    (chunk_file : String) :
    ((generateTask c i_task n_gpus default_gpu chunk_file).resume_command.isSome = true
      ↔ c.checkpoint_frequency.isSome = true)
    ∧ (∀ r, (generateTask c i_task n_gpus default_gpu chunk_file).resume_command = some r →
        r = (generateTask c i_task n_gpus default_gpu chunk_file).command
          ++ " --resume_from_checkpoint \""
          ++ strReplace chunk_file ".json" "_checkpoint.json" ++ "\"") := by
  constructor
  · simp only [generateTask, buildResumeCommand]
    by_cases h : c.checkpoint_frequency.isSome = true <;> simp [h]
  · intro r h
    simp only [generateTask, buildResumeCommand] at h ⊢
    by_cases hc : c.checkpoint_frequency.isSome = true
    · rw [if_pos hc] at h
      injection h with h
      exact h.symm
    · rw [if_neg hc] at h
      cases h

/-- C6 witness: a checkpointing configuration yields a resume command equal
to the command plus the resume flag; hypotheses discharged by evaluation. -/
theorem resume_iff_checkpointing_witness :
    ((generateTask ⟨false, false, false, false, some 10000, true, none, 1, none, false, false,
        false, none, "skip", "MDV5A"⟩ 0 2 0 "chunk000.json").resume_command.isSome = true)
    ∧ ((generateTask ⟨false, false, false, false, some 10000, true, none, 1, none, false, false,
        false, none, "skip", "MDV5A"⟩ 0 2 0 "chunk000.json").command
          ++ " --resume_from_checkpoint \""
          ++ strReplace "chunk000.json" ".json" "_checkpoint.json" ++ "\""
        = (generateTask ⟨false, false, false, false, some 10000, true, none, 1, none, false,
            false, false, none, "skip", "MDV5A"⟩ 0 2 0 "chunk000.json").command
          ++ " --resume_from_checkpoint \""
          ++ strReplace "chunk000.json" ".json" "_checkpoint.json" ++ "\"") :=
  ⟨(resume_iff_checkpointing ⟨false, false, false, false, some 10000, true, none, 1, none,
      false, false, false, none, "skip", "MDV5A"⟩ 0 2 0 "chunk000.json").1.mpr rfl,
   (resume_iff_checkpointing ⟨false, false, false, false, some 10000, true, none, 1, none,
      false, false, false, none, "skip", "MDV5A"⟩ 0 2 0 "chunk000.json").2 _ rfl⟩

theorem split_flatten (l : List String) (n : Nat) (hn : 0 < n) :
    (split_list_into_n_chunks l n).flatten = l := by
  obtain ⟨n', rfl⟩ : ∃ n', n = n' + 1 := ⟨n - 1, by omega⟩
  rw [split_list_into_n_chunks, flatten_filter_nonempty, splitChunksRaw_flatten]

theorem perm_flatten_of_perm {α : Type} {l₁ l₂ : List (List α)} (h : l₁.Perm l₂) :
    l₁.flatten.Perm l₂.flatten := by
  induction h with
  | nil => exact List.Perm.refl _
  | cons x _ ih => simpa using ih.append_left x
  | swap x y l =>
    simp only [List.flatten_cons]
    rw [← List.append_assoc, ← List.append_assoc]
    exact List.perm_append_comm.append_right _
  | trans _ _ ih1 ih2 => exact ih1.trans ih2

theorem loadChunkFiles_arr : ∀ cs : List (List String),
    loadChunkFiles (cs.map LoadedJson.arr) = some cs.flatten := by
  intro cs
  induction cs with
  | nil => rfl
  | cons c rest ih => simp [loadChunkFiles, ih]

theorem loadChunkFiles_bad : ∀ files : List LoadedJson,
    (∃ v ∈ files, ∀ xs, v ≠ LoadedJson.arr xs) → loadChunkFiles files = none := by
  intro files
  induction files with
  | nil =>
    rintro ⟨v, hv, -⟩
    exact absurd hv (List.not_mem_nil _)
  | cons f rest ih =>
    rintro ⟨v, hv, hna⟩
    rcases List.mem_cons.mp hv with rfl | hv'
    · cases v with
      | arr xs => exact absurd rfl (hna xs)
      | str s => rfl
      | num n => rfl
      | obj => rfl
    · cases f with
      | arr xs =>
        rw [loadChunkFiles, ih ⟨v, hv', hna⟩]
        rfl
      | str s => rfl
      | num n => rfl
      | obj => rfl

theorem sortStrings_sorted (l : List String) : List.Sorted strLe (sortStrings l) :=
  List.sorted_insertionSort strLe l

theorem sortStrings_perm (l : List String) : (sortStrings l).Perm l :=
  List.perm_insertionSort strLe l

theorem sortStrings_of_perm_sorted (l l' : List String) (hp : l'.Perm l)
    (hs : List.Sorted strLe l) : sortStrings l' = l :=
  List.eq_of_perm_of_sorted ((sortStrings_perm l').trans hp) (sortStrings_sorted l') hs

/-- C7: re-running planning against the persisted chunk manifests of a
sorted enumeration, in any on-disk order, recovers exactly the original
image list; and any chunk file that is not a list makes the load fail. -/
theorem recovery_matches_enumeration :
    (∀ (l : List String) (n : Nat) (cs : List (List String)), 0 < n →
        List.Sorted strLe l → cs.Perm (split_list_into_n_chunks l n) →
        recoveredImages (cs.map LoadedJson.arr) = some l)
    ∧ (∀ files : List LoadedJson, (∃ v ∈ files, ∀ xs, v ≠ LoadedJson.arr xs) →
        recoveredImages files = none) := by
  constructor
  · intro l n cs hn hs hperm
    rw [recoveredImages, loadChunkFiles_arr]
    have h1 := perm_flatten_of_perm hperm
    rw [split_flatten l n hn] at h1
    exact congrArg some (sortStrings_of_perm_sorted l cs.flatten h1 hs)
  · intro files hex
    rw [recoveredImages, loadChunkFiles_bad files hex]
    rfl

/-- C7 witness: two persisted chunks read back in reversed order still
recover the sorted enumeration, and a non-list chunk file fails. -/
theorem recovery_matches_enumeration_witness :
    recoveredImages ([["c"], ["a", "b"]].map LoadedJson.arr) = some ["a", "b", "c"]
    ∧ recoveredImages [LoadedJson.arr ["a"], LoadedJson.obj] = none :=
  ⟨recovery_matches_enumeration.1 ["a", "b", "c"] 2 [["c"], ["a", "b"]]
      (by decide) (by decide) (by decide),
   recovery_matches_enumeration.2 [LoadedJson.arr ["a"], LoadedJson.obj]
     ⟨LoadedJson.obj, by decide, fun xs h => LoadedJson.noConfusion h⟩⟩

theorem replaceFirstOcc_prefix_case (old new s : List Char)
    (h : old.isPrefixOf s = true) :
    replaceFirstOcc old new s = new ++ s.drop old.length := by
  cases s with
  | nil => rw [replaceFirstOcc, if_pos h, List.drop_nil, List.append_nil]
  | cons c t => rw [replaceFirstOcc, if_pos h]

theorem replaceFirstOcc_of_append (old new rest : List Char) :
    replaceFirstOcc old new (old ++ rest) = new ++ rest := by
  have hpre : old.isPrefixOf (old ++ rest) = true :=
    List.isPrefixOf_iff_prefix.mpr (List.prefix_append old rest)
  rw [replaceFirstOcc_prefix_case old new _ hpre, List.drop_left]

theorem string_mk_data (s : String) : (⟨s.data⟩ : String) = s := by
  cases s
  rfl

/-- C8: stripping the input root from an absolute path exactly once and
re-joining reproduces the original path, both when the root ends in a drive
separator and when it is an ordinary directory. -/
theorem relativization_reversible :
    (∀ root rest : String, root.data.getLast? = some ':' →
        relativizePath root ⟨root.data ++ rest.data⟩ = rest
        ∧ rejoinPath root (relativizePath root ⟨root.data ++ rest.data⟩)
          = ⟨root.data ++ rest.data⟩)
    ∧ (∀ root rest : String, root.data.getLast? ≠ some ':' →
        relativizePath root ⟨root.data ++ '/' :: rest.data⟩ = rest
        ∧ rejoinPath root (relativizePath root ⟨root.data ++ '/' :: rest.data⟩)
          = ⟨root.data ++ '/' :: rest.data⟩) := by
  constructor
  · intro root rest h
    have h1 : relativizePath root ⟨root.data ++ rest.data⟩ = rest := by
      rw [relativizePath, if_pos h]
      show (⟨replaceFirstOcc root.data [] (root.data ++ rest.data)⟩ : String) = rest
      rw [replaceFirstOcc_of_append, List.nil_append, string_mk_data]
    refine ⟨h1, ?_⟩
    rw [h1, rejoinPath, if_pos h]
  · intro root rest h
    have hsplit : root.data ++ '/' :: rest.data = (root.data ++ ['/']) ++ rest.data := by
      simp
    have h1 : relativizePath root ⟨root.data ++ '/' :: rest.data⟩ = rest := by
      rw [relativizePath, if_neg h]
      show (⟨replaceFirstOcc (root.data ++ ['/']) [] (root.data ++ '/' :: rest.data)⟩ : String)
        = rest
      rw [hsplit, replaceFirstOcc_of_append, List.nil_append, string_mk_data]
    refine ⟨h1, ?_⟩
    rw [h1, rejoinPath, if_neg h]

/-- C8 witness: a drive root and an ordinary root at concrete paths. -/
theorem relativization_reversible_witness :
    relativizePath "C:" ⟨("C:" : String).data ++ ("/a/b.jpg" : String).data⟩ = "/a/b.jpg"
    ∧ relativizePath "/r" ⟨("/r" : String).data ++ '/' :: ("a/b.jpg" : String).data⟩ = "a/b.jpg"
    ∧ rejoinPath "/r" (relativizePath "/r" ⟨("/r" : String).data ++ '/' ::
        ("a/b.jpg" : String).data⟩) = ⟨("/r" : String).data ++ '/' :: ("a/b.jpg" : String).data⟩ :=
  ⟨(relativization_reversible.1 "C:" "/a/b.jpg" (by decide)).1,
   (relativization_reversible.2 "/r" "a/b.jpg" (by decide)).1,
   (relativization_reversible.2 "/r" "a/b.jpg" (by decide)).2⟩

/-- C10: the enumeration branch removes exactly the recycle-bin and
system-volume paths, keeps every other path with its multiplicity, and
returns a sorted list. -/
theorem enumeration_filter_sorted (raw : List String) :
    (∀ fn ∈ enumerateImages raw,
        ¬(strStartsWith fn "$RECYCLE" = true
          ∨ strStartsWith fn "System Volume Information" = true))
    ∧ (∀ fn, (strStartsWith fn "$RECYCLE" = true
          ∨ strStartsWith fn "System Volume Information" = true) →
        (enumerateImages raw).count fn = 0)
    ∧ (∀ fn, ¬(strStartsWith fn "$RECYCLE" = true
          ∨ strStartsWith fn "System Volume Information" = true) →
        (enumerateImages raw).count fn = raw.count fn)
    ∧ List.Sorted strLe (enumerateImages raw) := by
  have hpred : ∀ g : String,
      ((!(strStartsWith g "$RECYCLE" || strStartsWith g "System Volume Information")) = true)
        ↔ ¬(strStartsWith g "$RECYCLE" = true
          ∨ strStartsWith g "System Volume Information" = true) := by
    intro g
    cases h1 : strStartsWith g "$RECYCLE" <;>
      cases h2 : strStartsWith g "System Volume Information" <;> simp [h1, h2]
  refine ⟨?_, ?_, ?_, ?_⟩
  · intro fn hfn
    rw [enumerateImages] at hfn
    have hf := List.of_mem_filter hfn
    exact (hpred fn).mp hf
  · intro fn hor
    rw [List.count_eq_zero]
    intro hmem
    rw [enumerateImages] at hmem
    have hf := List.of_mem_filter hmem
    exact (hpred fn).mp hf hor
  · intro fn hnor
    have hcf : List.count fn (List.filter
        (fun g => !(strStartsWith g "$RECYCLE" || strStartsWith g "System Volume Information"))
        (sortStrings raw)) = List.count fn (sortStrings raw) :=
      List.count_filter ((hpred fn).mpr hnor)
    rw [enumerateImages, hcf]
    exact (sortStrings_perm raw).count_eq fn
  · exact (sortStrings_sorted raw).filter _

/-- C10 witness: a recycle-bin entry is removed, other entries keep their
counts, and the result is sorted. -/
theorem enumeration_filter_sorted_witness :
    (enumerateImages ["b", "$RECYCLE/x", "a"]).count "$RECYCLE/x" = 0
    ∧ (enumerateImages ["b", "$RECYCLE/x", "a"]).count "a"
      = (["b", "$RECYCLE/x", "a"] : List String).count "a"
    ∧ List.Sorted strLe (enumerateImages ["b", "$RECYCLE/x", "a"]) :=
  ⟨(enumeration_filter_sorted ["b", "$RECYCLE/x", "a"]).2.1 "$RECYCLE/x" (Or.inl (by decide)),
   (enumeration_filter_sorted ["b", "$RECYCLE/x", "a"]).2.2.1 "a" (by decide),
   (enumeration_filter_sorted ["b", "$RECYCLE/x", "a"]).2.2.2⟩
